import Mathlib

/-!
Verification of the sops-to-vault secret importer.

The Go sources are shallowly embedded: `yaml.Node` becomes the inductive
`Node` (kind, value, tag, content), maps become association lists, file
systems become functions `String → Option String`, and the mutating
functions of `main.go` / `flatten.go` become pure Lean functions that
return the updated structure.
-/

/-- The kinds of `yaml.Node` relevant here (document, sequence, mapping,
scalar, alias). -/
inductive NodeKind where
  | document
  | sequence
  | mapping
  | scalar
  | aliasK
deriving DecidableEq, Repr

/-- Embedding of `yaml.Node`: kind, value, tag and the child list.
For a mapping node, `content` alternates key nodes (even indices) and
value nodes (odd indices), exactly as in the Go library. -/
inductive Node where
  | mk (kind : NodeKind) (value : String) (tag : String) (content : List Node)

/-- `Kind` field of a node. -/
def Node.kind : Node → NodeKind
  | .mk k _ _ _ => k

/-- `Value` field of a node. -/
def Node.value : Node → String
  | .mk _ v _ _ => v

/-- `Tag` field of a node. -/
def Node.tag : Node → String
  | .mk _ _ t _ => t

/-- `Content` field of a node. -/
def Node.content : Node → List Node
  | .mk _ _ _ c => c

/-- Replace the `Content` of a node, keeping every other field:
the functional image of the Go in-place update `node.Content = c`. -/
def withContent : Node → List Node → Node
  | .mk k v t _, c => .mk k v t c

/-- `&yaml.Node{Kind: yaml.ScalarNode, Value: s}`: a fresh scalar node
with empty tag and no children.  This is also the exact result of the
overwrite sequence `n.Value = s; n.Kind = ScalarNode; n.Tag = ""; n.Content = nil`
for the fields modelled here. -/
def scalarNode (s : String) : Node :=
  .mk NodeKind.scalar s "" []

/-- `strings.Split(s, sep)` for a one-character separator, via the
character list underlying the string. -/
def strSplit (sep : Char) (s : String) : List String :=
  (s.data.splitOn sep).map String.mk

/-- `strings.Join(ss, sep)` for a one-character separator. -/
def strJoin (sep : Char) (ss : List String) : String :=
  String.mk (List.intercalate [sep] (ss.map String.data))

/-- `strings.Contains(s, ".")`. -/
def containsDot (s : String) : Bool :=
  s.data.contains '.'

/-- `fmt.Sprintf("ref+vault://%s/%s#value", vaultPath, key)`
(main.go line 247). -/
def buildReference (vaultPath key : String) : String :=
  "ref+vault://" ++ vaultPath ++ "/" ++ key ++ "#value"

/-- `hasFlatKeys` (main.go 343-350): does any key node at an even
index of a mapping's content contain a dot? -/
def hasFlatKeys : List Node → Bool
  | [] => false
  | [k] => containsDot k.value
  | k :: _ :: rest => containsDot k.value || hasFlatKeys rest

/-- Phase 1 of `upsertNestedKey` (main.go 296-305): scan the content
for a key node equal to the joined flat key; on the first hit replace
the following value node by a fresh scalar and stop.  `none` means the
scan fell through without a match. -/
def overwriteFlatKey (flatKey value : String) : List Node → Option (List Node)
  | k :: v :: rest =>
    if k.value = flatKey then some (k :: scalarNode value :: rest)
    else (overwriteFlatKey flatKey value rest).map (fun c => k :: v :: c)
  | _ => none

/-- Phase 2 of `upsertNestedKey` (main.go 308-326): scan for the first
path segment.  On a hit: if it is the last segment overwrite the value;
otherwise descend via `upd` when the value is a mapping, and abort
(returning the content unchanged) when it is not.  `none` means no
entry key matched the segment. -/
def upsertSeg (seg : String) (isLast : Bool) (value : String) (upd : Node → Node) :
    List Node → Option (List Node)
  | k :: v :: rest =>
    if k.value = seg then
      if isLast then some (k :: scalarNode value :: rest)
      else if v.kind = NodeKind.mapping then some (k :: upd v :: rest)
      else some (k :: v :: rest)
    else (upsertSeg seg isLast value upd rest).map (fun c => k :: v :: c)
  | _ => none

/-- `addNestedKey` (main.go 353-374): append `keyPath` as a chain of
fresh mapping nodes under `node`, with a fresh scalar holding `value`
as the leaf. -/
def addNestedKey (node : Node) (keyPath : List String) (value : String) : Node :=
  match keyPath with
  | [] => node
  | [k] => withContent node (node.content ++ [scalarNode k, scalarNode value])
  | k :: rest =>
    withContent node
      (node.content ++ [scalarNode k, addNestedKey (.mk NodeKind.mapping "" "" []) rest value])

/-- `upsertNestedKey` (main.go 289-340).  Returns the node unchanged
when it is not a mapping or the path is empty; otherwise tries the
exact flat match, then the first-segment match, and finally appends the
key flat or nested depending on `hasFlatKeys`. -/
def upsertNestedKey (node : Node) (keyPath : List String) (value : String) : Node :=
  match keyPath with
  | [] => node
  | seg :: restPath =>
    if node.kind ≠ NodeKind.mapping then node
    else
      let flatKey := strJoin '.' (seg :: restPath)
      match overwriteFlatKey flatKey value node.content with
      | some c => withContent node c
      | none =>
        match upsertSeg seg restPath.isEmpty value
            (fun v => upsertNestedKey v restPath value) node.content with
        | some c => withContent node c
        | none =>
          if hasFlatKeys node.content then
            withContent node (node.content ++ [scalarNode flatKey, scalarNode value])
          else
            addNestedKey node (seg :: restPath) value

/-- One iteration of the key loop in `updateCounterpartFile`
(main.go 246-252): build the reference from the full dotted key and
upsert it along the split path. -/
def applyVaultRef (vaultPath : String) (node : Node) (key : String) : Node :=
  upsertNestedKey node (strSplit '.' key) (buildReference vaultPath key)

/-- The whole key loop of `updateCounterpartFile` (main.go 246-252),
processing the keys in the caller-supplied order. -/
def patchKeys (root : Node) (vaultPath : String) (sopsKeys : List String) : Node :=
  sopsKeys.foldl (applyVaultRef vaultPath) root

/-- The scan loop of `detectIndent` (main.go 272-282) over the split
lines: trim leading spaces (`strings.TrimLeft(line, " ")`); the first
line that still has content and lost characters determines the width. -/
def detectIndentGo : List (List Char) → Nat
  | [] => 2
  | line :: rest =>
    let trimmed := line.dropWhile (fun c => c == ' ')
    if 0 < trimmed.length ∧ trimmed.length < line.length then
      let indent := line.length - trimmed.length
      if 0 < indent then indent else detectIndentGo rest
    else detectIndentGo rest

/-- `detectIndent` (main.go 271-283): split the content on newlines and
scan for the first space-indented line; default 2. -/
def detectIndent (content : String) : Nat :=
  detectIndentGo (content.data.splitOn '\n')

/-- Values of the decoded YAML data (`interface{}` in `Flatten`):
strings, numbers, booleans, nested maps, and sequences (kept opaque). -/
inductive Val where
  | str (s : String)
  | int (n : Int)
  | bool (b : Bool)
  | map (m : List (String × Val))
  | list (xs : List Val)

/-- A Go map write `result[k] = v` on an association list: replace the
binding in place when the key exists, append otherwise. -/
def mapInsert : List (String × Val) → String → Val → List (String × Val)
  | [], k, v => [(k, v)]
  | (k0, v0) :: rest, k, v =>
    if k0 = k then (k0, v) :: rest else (k0, v0) :: mapInsert rest k v

mutual

/-- `flattenRecursive` (flatten.go 11-25): walk the entries, recursing
into map values with the extended dotted key and recording every other
value under its accumulated key. -/
def flattenRecursive : List (String × Val) → String → List (String × Val) → List (String × Val)
  | [], _, result => result
  | (key, value) :: rest, pfx, result =>
    let fullKey := if pfx = "" then key else pfx ++ "." ++ key
    flattenRecursive rest pfx (flattenStep value fullKey result)

/-- The body of the `switch` in `flattenRecursive`: recurse into map
values, record any other value as an opaque leaf. -/
def flattenStep : Val → String → List (String × Val) → List (String × Val)
  | .map mv, fullKey, result => flattenRecursive mv fullKey result
  | v, fullKey, result => mapInsert result fullKey v

end

/-- `Flatten` (flatten.go 5-9). -/
def Flatten (data : List (String × Val)) : List (String × Val) :=
  flattenRecursive data "" []

/-- The Go type name printed by `%T` for each non-string value kind in
`printDryRun` (main.go 169-170). -/
def typeTag : Val → String
  | .str _ => "string"
  | .int _ => "int"
  | .bool _ => "bool"
  | .map _ => "map[string]interface \x7b\x7d"
  | .list _ => "[]interface \x7b\x7d"

/-- One data line of `printDryRun` (main.go 163-172): a string value is
masked down to its byte length, anything else to its type; a missing
key would print Go's nil interface. -/
def entryLine (k : String) : Option Val → String
  | some (.str s) => "  " ++ k ++ " = <string, " ++ toString s.utf8ByteSize ++ " chars>"
  | some v => "  " ++ k ++ " = <" ++ typeTag v ++ ">"
  | none => "  " ++ k ++ " = <nil>"

/-- Insert a string into a sorted list (helper for `sort.Strings`). -/
def insertSorted (s : String) : List String → List String
  | [] => [s]
  | t :: rest => if s ≤ t then s :: t :: rest else t :: insertSorted s rest

/-- `sort.Strings` as insertion sort. -/
def sortStrings : List String → List String
  | [] => []
  | s :: rest => insertSorted s (sortStrings rest)

/-- `printDryRun` (main.go 152-173) as the list of printed lines:
header, count, then one masked line per key in sorted order. -/
def printDryRun (path mount : String) (data : List (String × Val)) : List String :=
  ("[dry-run] Would write to Vault path: " ++ mount ++ "/" ++ path) ::
  ("[dry-run] " ++ toString data.length ++ " secrets:") ::
  (sortStrings (data.map Prod.fst)).map (fun k => entryLine k (data.lookup k))

/-- `updateCounterpartFile` (main.go 212-268).  The file system is a
function from path to optional raw content; the external YAML codec is
passed in as `parse` (`yaml.Unmarshal` into a node tree, `none` on
error) and `encode` (`yaml.Encoder` with `SetIndent`).  Returns the new
file system, the `updated` flag and the error, mirroring the Go control
flow: a missing file is a silent no-op, then read, detect indentation,
parse, locate the root mapping, patch every key, re-encode and write. -/
def updateCounterpartFile (parse : String → Option Node) (encode : Nat → Node → String)
    (fs : String → Option String) (path vaultPath : String) (sopsKeys : List String) :
    (String → Option String) × Bool × Option String :=
  match fs path with
  | none => (fs, false, none)
  | some content =>
    let indent := detectIndent content
    match parse content with
    | none => (fs, false, some "parsing YAML")
    | some doc =>
      let root? : Option Node :=
        if doc.kind = NodeKind.document ∧ 0 < doc.content.length then doc.content.head?
        else if doc.kind = NodeKind.mapping then some doc
        else none
      match root? with
      | none => (fs, false, some "expected YAML mapping at root")
      | some root =>
        if root.kind ≠ NodeKind.mapping then (fs, false, some "expected YAML mapping at root")
        else
          let newRoot := patchKeys root vaultPath sopsKeys
          let newDoc :=
            if doc.kind = NodeKind.document then withContent doc (newRoot :: doc.content.tail)
            else newRoot
          let out := encode indent newDoc
          (fun q => if q = path then some out else fs q, true, none)

/-- The (key node, value node) pairs of a mapping's content, pairing
even with odd indices the way every stride-2 loop in main.go does. -/
def entryPairs : List Node → List (Node × Node)
  | k :: v :: rest => (k, v) :: entryPairs rest
  | _ => []

/-- Rebuild an alternating content list from entry pairs. -/
def flatEntries : List (Node × Node) → List Node
  | [] => []
  | p :: rest => p.1 :: p.2 :: flatEntries rest

/-- The nested chain that `addNestedKey` builds below the first new
segment: one fresh mapping per remaining segment, scalar leaf. -/
def chainNode : List String → String → Node
  | [], value => scalarNode value
  | s :: rest, value => .mk NodeKind.mapping "" "" [scalarNode s, chainNode rest value]

mutual

/-- Does `s` occur as a mapping key anywhere in the tree? -/
def keyInTree (s : String) : Node → Bool
  | .mk k _ _ content => if k = NodeKind.mapping then keyInList s content else false

/-- Does `s` occur as a mapping key in an alternating content list or
anywhere below it? -/
def keyInList (s : String) : List Node → Bool
  | kn :: v :: rest => kn.value == s || keyInTree s v || keyInList s rest
  | _ => false

end

/-! ### Basic lemmas about the string and entry-list helpers -/

lemma strJoin_strSplit (s : String) : strJoin '.' (strSplit '.' s) = s := by
  unfold strJoin strSplit
  rw [List.map_map]
  have h : (String.data ∘ String.mk) = id := rfl
  rw [h, List.map_id, List.intercalate_splitOn]

lemma strSplit_ne_nil (sep : Char) (s : String) : strSplit sep s ≠ [] := by
  unfold strSplit
  simp only [ne_eq, List.map_eq_nil_iff]
  simp only [List.splitOn]
  exact List.splitOnP_ne_nil _ _

lemma strJoin_single (s : String) : strJoin '.' [s] = s := by
  unfold strJoin
  simp [List.intercalate]

lemma flatEntries_append (a b : List (Node × Node)) :
    flatEntries (a ++ b) = flatEntries a ++ flatEntries b := by
  induction a with
  | nil => rfl
  | cons p rest ih => simp [flatEntries, ih]

lemma withContent_self (k : NodeKind) (v t : String) (c : List Node) :
    withContent (Node.mk k v t c) c = Node.mk k v t c := rfl

/-! ### Lemmas about the scan phases of upsertNestedKey -/

lemma overwriteFlatKey_miss (flatKey value : String) (entries : List (Node × Node))
    (h : ∀ p ∈ entries, p.1.value ≠ flatKey) :
    overwriteFlatKey flatKey value (flatEntries entries) = none := by
  induction entries with
  | nil => rfl
  | cons p rest ih =>
    simp only [flatEntries, overwriteFlatKey]
    rw [if_neg (h p (List.mem_cons_self _ _)),
      ih (fun q hq => h q (List.mem_cons_of_mem _ hq))]
    rfl

lemma overwriteFlatKey_hit (flatKey value : String) (pre : List (Node × Node))
    (kN oldV : Node) (post : List Node)
    (hpre : ∀ p ∈ pre, p.1.value ≠ flatKey) (hk : kN.value = flatKey) :
    overwriteFlatKey flatKey value (flatEntries pre ++ kN :: oldV :: post) =
      some (flatEntries pre ++ kN :: scalarNode value :: post) := by
  induction pre with
  | nil => simp [flatEntries, overwriteFlatKey, hk]
  | cons p rest ih =>
    simp only [flatEntries, List.cons_append, overwriteFlatKey, List.append_eq]
    rw [if_neg (hpre p (List.mem_cons_self _ _)),
      ih (fun q hq => hpre q (List.mem_cons_of_mem _ hq))]
    rfl

lemma upsertSeg_miss (seg : String) (isLast : Bool) (value : String) (upd : Node → Node)
    (entries : List (Node × Node)) (h : ∀ p ∈ entries, p.1.value ≠ seg) :
    upsertSeg seg isLast value upd (flatEntries entries) = none := by
  induction entries with
  | nil => rfl
  | cons p rest ih =>
    simp only [flatEntries, upsertSeg]
    rw [if_neg (h p (List.mem_cons_self _ _)),
      ih (fun q hq => h q (List.mem_cons_of_mem _ hq))]
    rfl

lemma upsertSeg_abort (seg : String) (value : String) (upd : Node → Node)
    (pre : List (Node × Node)) (kN vN : Node) (post : List Node)
    (hpre : ∀ p ∈ pre, p.1.value ≠ seg) (hk : kN.value = seg)
    (hkind : vN.kind ≠ NodeKind.mapping) :
    upsertSeg seg false value upd (flatEntries pre ++ kN :: vN :: post) =
      some (flatEntries pre ++ kN :: vN :: post) := by
  induction pre with
  | nil =>
    simp only [flatEntries, List.nil_append, upsertSeg]
    rw [if_pos hk, if_neg hkind]
    rfl
  | cons p rest ih =>
    simp only [flatEntries, List.cons_append, upsertSeg, List.append_eq]
    rw [if_neg (hpre p (List.mem_cons_self _ _)),
      ih (fun q hq => hpre q (List.mem_cons_of_mem _ hq))]
    rfl

lemma hasFlatKeys_flatEntries (entries : List (Node × Node)) :
    hasFlatKeys (flatEntries entries) = entries.any (fun p => containsDot p.1.value) := by
  induction entries with
  | nil => rfl
  | cons p rest ih => simp [flatEntries, hasFlatKeys, ih]

lemma addNestedKey_chain (rest : List String) (node : Node) (seg value : String) :
    addNestedKey node (seg :: rest) value =
      withContent node (node.content ++ [scalarNode seg, chainNode rest value]) := by
  induction rest generalizing node seg with
  | nil => rfl
  | cons r rs ih =>
    simp only [addNestedKey]
    rw [ih]
    rfl

lemma upsertNestedKey_mapping (nv nt : String) (c : List Node) (seg : String)
    (restPath : List String) (value : String) :
    upsertNestedKey (.mk NodeKind.mapping nv nt c) (seg :: restPath) value =
      (match overwriteFlatKey (strJoin '.' (seg :: restPath)) value c with
       | some c2 => withContent (.mk NodeKind.mapping nv nt c) c2
       | none =>
         match upsertSeg seg restPath.isEmpty value
             (fun v => upsertNestedKey v restPath value) c with
         | some c2 => withContent (.mk NodeKind.mapping nv nt c) c2
         | none =>
           if hasFlatKeys c then
             withContent (.mk NodeKind.mapping nv nt c)
               (c ++ [scalarNode (strJoin '.' (seg :: restPath)), scalarNode value])
           else
             addNestedKey (.mk NodeKind.mapping nv nt c) (seg :: restPath) value) := rfl

/-- C1: at any mapping level, when an existing entry's key equals the
remaining path segments joined with '.', that entry's value node is
overwritten in place by a scalar holding the supplied reference string,
everything else staying untouched; and the reference string passed down
by the key loop is built from the full original dotted key. -/
theorem exact_flat_match_precedence :
    (∀ (nv nt : String) (pre : List (Node × Node)) (kN oldV : Node) (post : List Node)
       (keyPath : List String) (value : String),
       keyPath ≠ [] →
       (∀ p ∈ pre, p.1.value ≠ strJoin '.' keyPath) →
       kN.value = strJoin '.' keyPath →
       upsertNestedKey (.mk NodeKind.mapping nv nt (flatEntries pre ++ kN :: oldV :: post))
           keyPath value
         = .mk NodeKind.mapping nv nt (flatEntries pre ++ kN :: scalarNode value :: post)) ∧
    (∀ (vaultPath : String) (node : Node) (key : String),
       applyVaultRef vaultPath node key =
         upsertNestedKey node (strSplit '.' key) (buildReference vaultPath key)) := by
  constructor
  · intro nv nt pre kN oldV post keyPath value hne hpre hk
    match keyPath, hne with
    | seg :: restPath, _ =>
      rw [upsertNestedKey_mapping, overwriteFlatKey_hit _ _ pre kN oldV post hpre hk]
      rfl
  · intro _ _ _
    rfl

theorem exact_flat_match_precedence_witness :
    (["a", "b"] ≠ ([] : List String)) ∧
    (∀ p ∈ ([] : List (Node × Node)), p.1.value ≠ strJoin '.' ["a", "b"]) ∧
    (scalarNode "a.b").value = strJoin '.' ["a", "b"] ∧
    upsertNestedKey (.mk NodeKind.mapping "" "" [scalarNode "a.b", scalarNode "placeholder"])
        ["a", "b"] (buildReference "secret/app" "a.b")
      = .mk NodeKind.mapping "" ""
          [scalarNode "a.b", scalarNode "ref+vault://secret/app/a.b#value"] :=
  ⟨by decide, by simp, by decide,
    exact_flat_match_precedence.1 "" "" [] (scalarNode "a.b") (scalarNode "placeholder") []
      ["a", "b"] (buildReference "secret/app" "a.b") (by decide) (by simp) (by decide)⟩

/-- C2: when neither the joined flat key nor the first segment matches
any key at the level, the new key is appended flat (one dotted entry)
if some sibling key contains a dot, and otherwise as a fresh nested
chain of mappings under the first remaining segment. -/
theorem new_key_follows_sibling_style (nv nt : String) (entries : List (Node × Node))
    (seg : String) (rest : List String) (value : String)
    (hflat : ∀ p ∈ entries, p.1.value ≠ strJoin '.' (seg :: rest))
    (hseg : ∀ p ∈ entries, p.1.value ≠ seg) :
    upsertNestedKey (.mk NodeKind.mapping nv nt (flatEntries entries)) (seg :: rest) value =
      .mk NodeKind.mapping nv nt (flatEntries entries ++
        (if entries.any (fun p => containsDot p.1.value) then
          [scalarNode (strJoin '.' (seg :: rest)), scalarNode value]
         else [scalarNode seg, chainNode rest value])) := by
  rw [upsertNestedKey_mapping, overwriteFlatKey_miss _ _ entries hflat,
    upsertSeg_miss _ _ _ _ entries hseg, hasFlatKeys_flatEntries]
  cases ha : entries.any (fun p => containsDot p.1.value) with
  | false =>
    simp only [ha, Bool.false_eq_true, if_false, addNestedKey_chain]
    rfl
  | true =>
    simp only [ha, if_true]
    rfl

theorem new_key_follows_sibling_style_witness :
    (∀ p ∈ [(scalarNode "existing", scalarNode "v")], p.1.value ≠ strJoin '.' ["new", "key"]) ∧
    (∀ p ∈ [(scalarNode "existing", scalarNode "v")], p.1.value ≠ "new") ∧
    upsertNestedKey (.mk NodeKind.mapping "" ""
        (flatEntries [(scalarNode "existing", scalarNode "v")])) ["new", "key"] "r" =
      .mk NodeKind.mapping "" "" (flatEntries [(scalarNode "existing", scalarNode "v")] ++
        (if [(scalarNode "existing", scalarNode "v")].any (fun p => containsDot p.1.value) then
          [scalarNode (strJoin '.' ["new", "key"]), scalarNode "r"]
         else [scalarNode "new", chainNode ["key"] "r"])) :=
  ⟨by decide, by decide,
    new_key_follows_sibling_style "" "" [(scalarNode "existing", scalarNode "v")]
      "new" ["key"] "r" (by decide) (by decide)⟩

/-- C4: with at least two remaining segments, no exact flat match, and
the first matching first-segment entry holding a non-mapping value,
the whole update for that key is a no-op: the tree is returned exactly
as it was and no error is produced (the function is total). -/
theorem rule2_abort_untouched (nv nt : String) (pre : List (Node × Node)) (kN vN : Node)
    (post : List (Node × Node)) (seg s2 : String) (rest2 : List String) (value : String)
    (hkind : vN.kind ≠ NodeKind.mapping)
    (hk : kN.value = seg)
    (hflat : ∀ p ∈ pre ++ (kN, vN) :: post, p.1.value ≠ strJoin '.' (seg :: s2 :: rest2))
    (hsegpre : ∀ p ∈ pre, p.1.value ≠ seg) :
    upsertNestedKey
        (.mk NodeKind.mapping nv nt (flatEntries pre ++ kN :: vN :: flatEntries post))
        (seg :: s2 :: rest2) value
      = .mk NodeKind.mapping nv nt (flatEntries pre ++ kN :: vN :: flatEntries post) := by
  have h1 := overwriteFlatKey_miss (strJoin '.' (seg :: s2 :: rest2)) value
    (pre ++ (kN, vN) :: post) hflat
  rw [flatEntries_append] at h1
  simp only [flatEntries] at h1
  rw [upsertNestedKey_mapping, h1]
  have h2 := upsertSeg_abort seg value (fun v => upsertNestedKey v (s2 :: rest2) value)
    pre kN vN (flatEntries post) hsegpre hk hkind
  simp only [List.isEmpty_cons]
  rw [h2]
  rfl

theorem rule2_abort_untouched_witness :
    ((scalarNode "leaf").kind ≠ NodeKind.mapping) ∧
    ((scalarNode "a").value = "a") ∧
    (∀ p ∈ ([] : List (Node × Node)) ++ (scalarNode "a", scalarNode "leaf") :: [],
      p.1.value ≠ strJoin '.' ["a", "b"]) ∧
    upsertNestedKey (.mk NodeKind.mapping "" "" [scalarNode "a", scalarNode "leaf"])
        ["a", "b"] "r"
      = .mk NodeKind.mapping "" "" [scalarNode "a", scalarNode "leaf"] :=
  ⟨by decide, by decide, by decide,
    rule2_abort_untouched "" "" [] (scalarNode "a") (scalarNode "leaf") [] "a" "b" [] "r"
      (by decide) (by decide) (by decide) (by simp)⟩

/-- C10: an overwrite hitting an entry whose current value is a whole
mapping subtree replaces that subtree by a single scalar node: kind
scalar, value the reference string, tag cleared, children dropped.
First conjunct: the exact-flat-match rule at any remaining path; second
conjunct: a single-segment key (its last segment) matching an entry
key.  No error is produced in either case. -/
theorem overwrite_destroys_subtree :
    (∀ (nv nt : String) (pre : List (Node × Node)) (kN sub : Node) (post : List Node)
       (keyPath : List String) (value : String),
       keyPath ≠ [] →
       sub.kind = NodeKind.mapping →
       (∀ p ∈ pre, p.1.value ≠ strJoin '.' keyPath) →
       kN.value = strJoin '.' keyPath →
       upsertNestedKey (.mk NodeKind.mapping nv nt (flatEntries pre ++ kN :: sub :: post))
           keyPath value
         = .mk NodeKind.mapping nv nt
             (flatEntries pre ++ kN :: Node.mk NodeKind.scalar value "" [] :: post)) ∧
    (∀ (nv nt : String) (pre : List (Node × Node)) (kN sub : Node) (post : List Node)
       (seg value : String),
       sub.kind = NodeKind.mapping →
       (∀ p ∈ pre, p.1.value ≠ seg) →
       kN.value = seg →
       upsertNestedKey (.mk NodeKind.mapping nv nt (flatEntries pre ++ kN :: sub :: post))
           [seg] value
         = .mk NodeKind.mapping nv nt
             (flatEntries pre ++ kN :: Node.mk NodeKind.scalar value "" [] :: post)) := by
  have main : ∀ (nv nt : String) (pre : List (Node × Node)) (kN sub : Node) (post : List Node)
      (keyPath : List String) (value : String),
      keyPath ≠ [] →
      (∀ p ∈ pre, p.1.value ≠ strJoin '.' keyPath) →
      kN.value = strJoin '.' keyPath →
      upsertNestedKey (.mk NodeKind.mapping nv nt (flatEntries pre ++ kN :: sub :: post))
          keyPath value
        = .mk NodeKind.mapping nv nt
            (flatEntries pre ++ kN :: Node.mk NodeKind.scalar value "" [] :: post) := by
    intro nv nt pre kN sub post keyPath value hne hpre hk
    match keyPath, hne with
    | seg :: restPath, _ =>
      rw [upsertNestedKey_mapping, overwriteFlatKey_hit _ _ pre kN sub post hpre hk]
      rfl
  constructor
  · intro nv nt pre kN sub post keyPath value hne hsub hpre hk
    exact main nv nt pre kN sub post keyPath value hne hpre hk
  · intro nv nt pre kN sub post seg value hsub hpre hk
    refine main nv nt pre kN sub post [seg] value (by simp) ?_ ?_
    · intro p hp
      rw [strJoin_single]
      exact hpre p hp
    · rw [strJoin_single]
      exact hk

theorem overwrite_destroys_subtree_witness :
    ((["a", "b"] : List String) ≠ []) ∧
    (Node.mk NodeKind.mapping "" "" [scalarNode "c", scalarNode "x"]).kind
      = NodeKind.mapping ∧
    (scalarNode "a.b").value = strJoin '.' ["a", "b"] ∧
    upsertNestedKey (.mk NodeKind.mapping "" ""
        [scalarNode "a.b", Node.mk NodeKind.mapping "" "" [scalarNode "c", scalarNode "x"]])
        ["a", "b"] "r"
      = .mk NodeKind.mapping "" "" [scalarNode "a.b", Node.mk NodeKind.scalar "r" "" []] :=
  ⟨by decide, by decide, by decide,
    overwrite_destroys_subtree.1 "" "" []
      (scalarNode "a.b") (Node.mk NodeKind.mapping "" "" [scalarNode "c", scalarNode "x"]) []
      ["a", "b"] "r" (by decide) (by decide) (by simp) (by decide)⟩

/-- C9: when the companion file does not exist, the update returns
updated = false with no error, and the file system is returned exactly
as it was: nothing is written and no file is created. -/
theorem missing_counterpart_noop (parse : String → Option Node) (encode : Nat → Node → String)
    (fs : String → Option String) (path vaultPath : String) (sopsKeys : List String)
    (h : fs path = none) :
    updateCounterpartFile parse encode fs path vaultPath sopsKeys = (fs, false, none) := by
  unfold updateCounterpartFile
  rw [h]

theorem missing_counterpart_noop_witness :
    ((fun _ : String => (none : Option String)) "app.yaml" = none) ∧
    updateCounterpartFile (fun _ => none) (fun _ _ => "") (fun _ => none)
        "app.yaml" "secret/myapp" ["password"]
      = (fun _ => none, false, none) :=
  ⟨rfl, missing_counterpart_noop (fun _ => none) (fun _ _ => "") (fun _ => none)
    "app.yaml" "secret/myapp" ["password"] rfl⟩

/-- C3: keys are folded over in the caller-supplied order, each later
key seeing the tree produced for the earlier ones; concretely, two new
dotted keys sharing the fresh first segment "shared" at a nested-style
level end up inside the single mapping created for the first key. -/
theorem sequential_visibility :
    (∀ (root : Node) (vaultPath key : String) (keys : List String),
      patchKeys root vaultPath (key :: keys) =
        patchKeys (applyVaultRef vaultPath root key) vaultPath keys) ∧
    patchKeys (.mk NodeKind.mapping "" "" [scalarNode "existing", scalarNode "v"])
        "secret/app" ["shared.a", "shared.b"] =
      .mk NodeKind.mapping "" "" [scalarNode "existing", scalarNode "v",
        scalarNode "shared", .mk NodeKind.mapping "" ""
          [scalarNode "a", scalarNode "ref+vault://secret/app/shared.a#value",
           scalarNode "b", scalarNode "ref+vault://secret/app/shared.b#value"]] :=
  ⟨fun _ _ _ _ => rfl, rfl⟩

lemma detectIndentGo_pos (lines : List (List Char)) : 1 ≤ detectIndentGo lines := by
  induction lines with
  | nil => simp [detectIndentGo]
  | cons line rest ih =>
    simp only [detectIndentGo]
    split
    · split
      · omega
      · exact ih
    · exact ih

/-- C8 counterexample: on content whose only indented-looking line
starts with one tab followed by non-whitespace, detectIndent returns
the default 2, not 1 as the claim asserts — a leading tab contributes
nothing to the detected indentation. -/
theorem tab_indent_counterexample :
    detectIndent "key:\n\tvalue: 1\n" = 2 ∧ detectIndent "key:\n\tvalue: 1\n" ≠ 1 := by
  decide

/-- C8 amended: detectIndent always returns at least 1 and defaults to
2; `strings.TrimLeft(line, " ")` strips only spaces, so a line whose
leading whitespace starts with a tab is skipped entirely and never
determines the width. -/
theorem detect_indent_amended :
    (∀ content : String, 1 ≤ detectIndent content) ∧
    (∀ (cs : List Char) (rest : List (List Char)),
      detectIndentGo (('\t' :: cs) :: rest) = detectIndentGo rest) ∧
    detectIndentGo [] = 2 := by
  refine ⟨fun content => detectIndentGo_pos _, fun cs rest => ?_, rfl⟩
  simp [detectIndentGo, List.dropWhile_cons]

/-- The masked rendering of a present value: everything the dry-run
line shows beyond the key itself. -/
def maskVal : Val → String
  | .str s => "<string, " ++ toString s.utf8ByteSize ++ " chars>"
  | v => "<" ++ typeTag v ++ ">"

/-- The masked rendering of a looked-up value. -/
def maskOpt : Option Val → String
  | some v => maskVal v
  | none => "<nil>"

lemma string_append_assoc (a b c : String) : a ++ b ++ c = a ++ (b ++ c) := by
  cases a with
  | mk la =>
    cases b with
    | mk lb =>
      cases c with
      | mk lc =>
        show String.mk ((la ++ lb) ++ lc) = String.mk (la ++ (lb ++ lc))
        rw [List.append_assoc]

lemma entryLine_eq_mask (k : String) (ov : Option Val) :
    entryLine k ov = "  " ++ k ++ " = " ++ maskOpt ov := by
  cases ov with
  | none =>
    simp only [entryLine, maskOpt, string_append_assoc]
    rfl
  | some v =>
    cases v <;> simp only [entryLine, maskOpt, maskVal, typeTag, string_append_assoc] <;> rfl

lemma lookup_map_mask (data : List (String × Val)) (k : String) :
    (data.map (fun p => (p.1, maskVal p.2))).lookup k = (data.lookup k).map maskVal := by
  induction data with
  | nil => rfl
  | cons p rest ih =>
    cases h : k == p.1 <;> simp [List.lookup, h, ih]

lemma maskOpt_congr (o1 o2 : Option Val) (h : o1.map maskVal = o2.map maskVal) :
    maskOpt o1 = maskOpt o2 := by
  cases o1 <;> cases o2 <;> simp_all [maskOpt]

/-- C7: the dry-run output is a function of the keys and of the masked
value descriptions only (value kind, and byte length for strings):
two data maps that agree keywise on those produce character-identical
output, whatever the secret contents are — so no line ever depends on,
or contains more about, a string value than its length. -/
theorem dryrun_no_leak (path mount : String) (d1 d2 : List (String × Val))
    (h : d1.map (fun p => (p.1, maskVal p.2)) = d2.map (fun p => (p.1, maskVal p.2))) :
    printDryRun path mount d1 = printDryRun path mount d2 := by
  have hkeys : d1.map Prod.fst = d2.map Prod.fst := by
    have h2 := congrArg (List.map Prod.fst) h
    simpa [List.map_map, Function.comp] using h2
  have hlen : d1.length = d2.length := by
    have h3 := congrArg List.length hkeys
    simpa using h3
  have hlook : ∀ k, (d1.lookup k).map maskVal = (d2.lookup k).map maskVal := by
    intro k
    rw [← lookup_map_mask, ← lookup_map_mask, h]
  unfold printDryRun
  rw [hkeys, hlen]
  refine congrArg _ (congrArg _ ?_)
  refine List.map_congr_left ?_
  intro k _
  rw [entryLine_eq_mask, entryLine_eq_mask, maskOpt_congr _ _ (hlook k)]

theorem dryrun_no_leak_witness :
    ([("db_pass", Val.str "hunter2"), ("api_key", Val.str "s3cr3t!!")].map
        (fun p => (p.1, maskVal p.2)) =
      [("db_pass", Val.str "opensay"), ("api_key", Val.str "differen")].map
        (fun p => (p.1, maskVal p.2))) ∧
    printDryRun "myapp" "secret"
        [("db_pass", Val.str "hunter2"), ("api_key", Val.str "s3cr3t!!")] =
      printDryRun "myapp" "secret"
        [("db_pass", Val.str "opensay"), ("api_key", Val.str "differen")] :=
  ⟨by decide, dryrun_no_leak "myapp" "secret"
    [("db_pass", Val.str "hunter2"), ("api_key", Val.str "s3cr3t!!")]
    [("db_pass", Val.str "opensay"), ("api_key", Val.str "differen")] (by decide)⟩

mutual

/-- The leaves of a nested map reachable through map values only, each
listed with the key formed by joining its path segments with '.' —
the specification-side description of what Flatten should produce. -/
def leafPaths : List (String × Val) → List String → List (String × Val)
  | [], _ => []
  | (key, value) :: rest, path => leafStep value (path ++ [key]) ++ leafPaths rest path

/-- The leaves of one value: recurse into maps, otherwise one leaf
under the joined path. -/
def leafStep : Val → List String → List (String × Val)
  | .map mv, path => leafPaths mv path
  | v, path => [(strJoin '.' path, v)]

end

mutual

/-- Every key in the nested map, at every level, is a non-empty string. -/
def keysNonempty : List (String × Val) → Bool
  | [] => true
  | (k, v) :: rest => !(k == "") && keysNonemptyVal v && keysNonempty rest

/-- Key non-emptiness below one value. -/
def keysNonemptyVal : Val → Bool
  | .map mv => keysNonempty mv
  | _ => true

end

lemma intercalate_cons_of_ne_nil {α : Type} (sep x : List α) (xs : List (List α))
    (h : xs ≠ []) :
    List.intercalate sep (x :: xs) = x ++ sep ++ List.intercalate sep xs := by
  match xs, h with
  | y :: ys, _ =>
    show (List.intersperse sep (x :: y :: ys)).flatten = _
    rw [List.intersperse_cons_cons]
    simp [List.intercalate, List.append_assoc]

lemma strJoin_cons (s : String) (ss : List String) (h : ss ≠ []) :
    strJoin '.' (s :: ss) = s ++ "." ++ strJoin '.' ss := by
  unfold strJoin
  rw [List.map_cons, intercalate_cons_of_ne_nil _ _ _ (by simp [h])]
  rfl

lemma strJoin_append_single (path : List String) (k : String) (hp : path ≠ []) :
    strJoin '.' (path ++ [k]) = strJoin '.' path ++ "." ++ k := by
  induction path with
  | nil => exact absurd rfl hp
  | cons p ps ih =>
    rw [List.cons_append, strJoin_cons p (ps ++ [k]) (by simp)]
    cases ps with
    | nil =>
      simp only [List.nil_append]
      rw [strJoin_single, strJoin_single]
    | cons q qs =>
      rw [ih (by simp), strJoin_cons p (q :: qs) (by simp)]
      simp only [string_append_assoc]

lemma append_dot_ne_empty (a b : String) : a ++ "." ++ b ≠ "" := by
  cases a with
  | mk la =>
    cases b with
    | mk lb =>
      intro h
      have h2 : ((la ++ ['.']) ++ lb) = [] := congrArg String.data h
      simp at h2

lemma goFullKey (path : List String) (key : String)
    (hjoin : path ≠ [] → strJoin '.' path ≠ "") :
    (if strJoin '.' path = "" then key else strJoin '.' path ++ "." ++ key) =
      strJoin '.' (path ++ [key]) := by
  by_cases hp : path = []
  · subst hp
    rw [if_pos (show strJoin '.' ([] : List String) = "" from rfl)]
    simp only [List.nil_append]
    exact (strJoin_single key).symm
  · rw [if_neg (hjoin hp), strJoin_append_single path key hp]

lemma mapInsert_append (l : List (String × Val)) (k : String) (v : Val)
    (h : k ∉ l.map Prod.fst) :
    mapInsert l k v = l ++ [(k, v)] := by
  induction l with
  | nil => rfl
  | cons p rest ih =>
    simp only [List.map_cons, List.mem_cons] at h
    push_neg at h
    simp only [mapInsert]
    rw [if_neg (fun he => h.1 he.symm), ih h.2]
    rfl

lemma countP_eq_one_of_nodup_mem {l : List String} {a : String}
    (hnd : l.Nodup) (ha : a ∈ l) :
    l.countP (fun s => s == a) = 1 := by
  induction l with
  | nil => cases ha
  | cons x rest ih =>
    rw [List.countP_cons]
    rcases List.mem_cons.mp ha with h | h
    · subst h
      have hz : rest.countP (fun s => s == a) = 0 := by
        rw [List.countP_eq_zero]
        intro b hb hba
        exact (List.nodup_cons.mp hnd).1 ((beq_iff_eq.mp hba) ▸ hb)
      simp [hz]
    · have hx : ((x == a) = true) → False := by
        intro hxa
        exact (List.nodup_cons.mp hnd).1 ((beq_iff_eq.mp hxa) ▸ h)
      rw [ih (List.nodup_cons.mp hnd).2 h, if_neg hx]

lemma flattenRecursive_leafPaths :
    ∀ (n : Nat) (data : List (String × Val)), sizeOf data ≤ n →
    ∀ (path : List String) (result : List (String × Val)),
      keysNonempty data = true →
      (path ≠ [] → strJoin '.' path ≠ "") →
      (result.map Prod.fst ++ (leafPaths data path).map Prod.fst).Nodup →
      flattenRecursive data (strJoin '.' path) result = result ++ leafPaths data path := by
  intro n
  induction n with
  | zero =>
    intro data hsz
    cases data <;> simp at hsz
  | succ n ih =>
    intro data hsz path result hne hjoin hnd
    match data with
    | [] => simp [flattenRecursive, leafPaths]
    | (key, value) :: rest =>
      cases value with
      | map mv =>
        obtain ⟨⟨hkey, hmv⟩, hrest⟩ :
            (key ≠ "" ∧ keysNonempty mv = true) ∧ keysNonempty rest = true := by
          simpa [keysNonempty, keysNonemptyVal, Bool.and_eq_true, Bool.not_eq_true',
            beq_eq_false_iff_ne] using hne
        simp only [flattenRecursive, flattenStep, leafPaths, leafStep]
        rw [goFullKey path key hjoin]
        have hszm : sizeOf mv ≤ n := by simp at hsz; omega
        have hszr : sizeOf rest ≤ n := by simp at hsz; omega
        have hjoin' : path ++ [key] ≠ [] → strJoin '.' (path ++ [key]) ≠ "" := by
          intro _
          by_cases hp : path = []
          · subst hp
            simp only [List.nil_append]
            rw [strJoin_single]
            exact hkey
          · rw [strJoin_append_single path key hp]
            exact append_dot_ne_empty _ _
        have hnd' : (result.map Prod.fst ++
            ((leafPaths mv (path ++ [key])).map Prod.fst ++
              (leafPaths rest path).map Prod.fst)).Nodup := by
          simpa [leafPaths, leafStep] using hnd
        have hndInner : (result.map Prod.fst ++
            (leafPaths mv (path ++ [key])).map Prod.fst).Nodup := by
          have hsub : List.Sublist
              (result.map Prod.fst ++ (leafPaths mv (path ++ [key])).map Prod.fst)
              (result.map Prod.fst ++ ((leafPaths mv (path ++ [key])).map Prod.fst ++
                (leafPaths rest path).map Prod.fst)) := by
            rw [← List.append_assoc]
            exact List.sublist_append_left _ _
          exact List.Nodup.sublist hsub hnd'
        rw [ih mv hszm (path ++ [key]) result hmv hjoin' hndInner]
        have hndOuter : ((result ++ leafPaths mv (path ++ [key])).map Prod.fst ++
            (leafPaths rest path).map Prod.fst).Nodup := by
          simpa [List.append_assoc] using hnd'
        rw [ih rest hszr path (result ++ leafPaths mv (path ++ [key])) hrest hjoin hndOuter]
        simp [List.append_assoc]
      | str s =>
        obtain ⟨hkey, hrest⟩ :
            key ≠ "" ∧ keysNonempty rest = true := by
          simpa [keysNonempty, keysNonemptyVal, Bool.and_eq_true, Bool.not_eq_true',
            beq_eq_false_iff_ne] using hne
        simp only [flattenRecursive, flattenStep, leafPaths, leafStep,
          List.singleton_append]
        rw [goFullKey path key hjoin]
        have hnd' : (result.map Prod.fst ++
            (strJoin '.' (path ++ [key]) :: (leafPaths rest path).map Prod.fst)).Nodup := by
          simpa [leafPaths, leafStep] using hnd
        have hmem : strJoin '.' (path ++ [key]) ∉ result.map Prod.fst := by
          rw [List.nodup_append] at hnd'
          exact fun hm => hnd'.2.2 hm (List.mem_cons_self _ _)
        rw [mapInsert_append result _ _ hmem]
        have hszr : sizeOf rest ≤ n := by simp at hsz; omega
        have hndOuter : ((result ++ [(strJoin '.' (path ++ [key]), Val.str s)]).map
            Prod.fst ++ (leafPaths rest path).map Prod.fst).Nodup := by
          simpa [List.append_assoc] using hnd'
        rw [ih rest hszr path
          (result ++ [(strJoin '.' (path ++ [key]), Val.str s)]) hrest hjoin hndOuter]
        simp [List.append_assoc]
      | int i =>
        obtain ⟨hkey, hrest⟩ :
            key ≠ "" ∧ keysNonempty rest = true := by
          simpa [keysNonempty, keysNonemptyVal, Bool.and_eq_true, Bool.not_eq_true',
            beq_eq_false_iff_ne] using hne
        simp only [flattenRecursive, flattenStep, leafPaths, leafStep,
          List.singleton_append]
        rw [goFullKey path key hjoin]
        have hnd' : (result.map Prod.fst ++
            (strJoin '.' (path ++ [key]) :: (leafPaths rest path).map Prod.fst)).Nodup := by
          simpa [leafPaths, leafStep] using hnd
        have hmem : strJoin '.' (path ++ [key]) ∉ result.map Prod.fst := by
          rw [List.nodup_append] at hnd'
          exact fun hm => hnd'.2.2 hm (List.mem_cons_self _ _)
        rw [mapInsert_append result _ _ hmem]
        have hszr : sizeOf rest ≤ n := by simp at hsz; omega
        have hndOuter : ((result ++ [(strJoin '.' (path ++ [key]), Val.int i)]).map
            Prod.fst ++ (leafPaths rest path).map Prod.fst).Nodup := by
          simpa [List.append_assoc] using hnd'
        rw [ih rest hszr path
          (result ++ [(strJoin '.' (path ++ [key]), Val.int i)]) hrest hjoin hndOuter]
        simp [List.append_assoc]
      | bool b =>
        obtain ⟨hkey, hrest⟩ :
            key ≠ "" ∧ keysNonempty rest = true := by
          simpa [keysNonempty, keysNonemptyVal, Bool.and_eq_true, Bool.not_eq_true',
            beq_eq_false_iff_ne] using hne
        simp only [flattenRecursive, flattenStep, leafPaths, leafStep,
          List.singleton_append]
        rw [goFullKey path key hjoin]
        have hnd' : (result.map Prod.fst ++
            (strJoin '.' (path ++ [key]) :: (leafPaths rest path).map Prod.fst)).Nodup := by
          simpa [leafPaths, leafStep] using hnd
        have hmem : strJoin '.' (path ++ [key]) ∉ result.map Prod.fst := by
          rw [List.nodup_append] at hnd'
          exact fun hm => hnd'.2.2 hm (List.mem_cons_self _ _)
        rw [mapInsert_append result _ _ hmem]
        have hszr : sizeOf rest ≤ n := by simp at hsz; omega
        have hndOuter : ((result ++ [(strJoin '.' (path ++ [key]), Val.bool b)]).map
            Prod.fst ++ (leafPaths rest path).map Prod.fst).Nodup := by
          simpa [List.append_assoc] using hnd'
        rw [ih rest hszr path
          (result ++ [(strJoin '.' (path ++ [key]), Val.bool b)]) hrest hjoin hndOuter]
        simp [List.append_assoc]
      | list xs =>
        obtain ⟨hkey, hrest⟩ :
            key ≠ "" ∧ keysNonempty rest = true := by
          simpa [keysNonempty, keysNonemptyVal, Bool.and_eq_true, Bool.not_eq_true',
            beq_eq_false_iff_ne] using hne
        simp only [flattenRecursive, flattenStep, leafPaths, leafStep,
          List.singleton_append]
        rw [goFullKey path key hjoin]
        have hnd' : (result.map Prod.fst ++
            (strJoin '.' (path ++ [key]) :: (leafPaths rest path).map Prod.fst)).Nodup := by
          simpa [leafPaths, leafStep] using hnd
        have hmem : strJoin '.' (path ++ [key]) ∉ result.map Prod.fst := by
          rw [List.nodup_append] at hnd'
          exact fun hm => hnd'.2.2 hm (List.mem_cons_self _ _)
        rw [mapInsert_append result _ _ hmem]
        have hszr : sizeOf rest ≤ n := by simp at hsz; omega
        have hndOuter : ((result ++ [(strJoin '.' (path ++ [key]), Val.list xs)]).map
            Prod.fst ++ (leafPaths rest path).map Prod.fst).Nodup := by
          simpa [List.append_assoc] using hnd'
        rw [ih rest hszr path
          (result ++ [(strJoin '.' (path ++ [key]), Val.list xs)]) hrest hjoin hndOuter]
        simp [List.append_assoc]

/-- C6 amended: provided every mapping key is non-empty (else the
prefix == "" branch diverges from '.'-joining) and the joined dotted
keys of the reachable leaves are pairwise distinct (else a colliding
map write drops a leaf), Flatten returns exactly the reachable leaves,
each under its '.'-joined path and each key exactly once; the empty
input yields the empty result (and the function is total — no error
channel exists). -/
theorem flatten_totality_amended (data : List (String × Val))
    (hne : keysNonempty data = true)
    (hnd : ((leafPaths data []).map Prod.fst).Nodup) :
    Flatten data = leafPaths data [] ∧
    (∀ kv ∈ leafPaths data [], kv ∈ Flatten data ∧
      (Flatten data).countP (fun q => q.1 == kv.1) = 1) ∧
    Flatten ([] : List (String × Val)) = [] := by
  have hmain : Flatten data = leafPaths data [] := by
    have h := flattenRecursive_leafPaths (sizeOf data) data le_rfl [] []
      hne (fun h => absurd rfl h) (by simpa using hnd)
    rw [show strJoin '.' ([] : List String) = "" from rfl] at h
    simpa [Flatten] using h
  refine ⟨hmain, ?_, rfl⟩
  intro kv hkv
  refine ⟨hmain ▸ hkv, ?_⟩
  rw [hmain]
  have h1 : (leafPaths data []).countP (fun q => q.1 == kv.1) =
      ((leafPaths data []).map Prod.fst).countP (fun s => s == kv.1) := by
    rw [List.countP_map]
    rfl
  rw [h1]
  exact countP_eq_one_of_nodup_mem hnd (List.mem_map_of_mem _ hkv)

theorem flatten_totality_amended_witness :
    keysNonempty [("a", Val.map [("b", Val.str "x")]), ("c", Val.str "y")] = true ∧
    ((leafPaths [("a", Val.map [("b", Val.str "x")]), ("c", Val.str "y")] []).map
      Prod.fst).Nodup ∧
    Flatten [("a", Val.map [("b", Val.str "x")]), ("c", Val.str "y")] =
      leafPaths [("a", Val.map [("b", Val.str "x")]), ("c", Val.str "y")] [] :=
  ⟨by decide, by decide,
    (flatten_totality_amended [("a", Val.map [("b", Val.str "x")]), ("c", Val.str "y")]
      (by decide) (by decide)).1⟩

/-- C6 counterexample: two concrete failures of the claim as stated,
one per hypothesis the amendment adds.  First, collision: the flat key
"a.b" collides with the nested path a→b, the later Go map write
overwrites the earlier one, and the reachable leaf ("a.b", x) is
absent from the output.  Second, empty key: with "" as a mapping key,
the prefix == "" branch of flattenRecursive records the leaf under
"x", not under its '.'-joined path ".x", so that reachable leaf does
not appear under the key the claim prescribes. -/
theorem flatten_totality_counterexample :
    ((("a.b", Val.str "x") ∈
        leafPaths [("a", Val.map [("b", Val.str "x")]), ("a.b", Val.str "y")] []) ∧
      Flatten [("a", Val.map [("b", Val.str "x")]), ("a.b", Val.str "y")] =
        [("a.b", Val.str "y")] ∧
      (("a.b", Val.str "x") ∉
        Flatten [("a", Val.map [("b", Val.str "x")]), ("a.b", Val.str "y")])) ∧
    (((".x", Val.str "v") ∈ leafPaths [("", Val.map [("x", Val.str "v")])] []) ∧
      Flatten [("", Val.map [("x", Val.str "v")])] = [("x", Val.str "v")] ∧
      ((".x", Val.str "v") ∉ Flatten [("", Val.map [("x", Val.str "v")])])) := by
  refine ⟨⟨?_, rfl, ?_⟩, ⟨?_, rfl, ?_⟩⟩
  · rw [show leafPaths [("a", Val.map [("b", Val.str "x")]), ("a.b", Val.str "y")] [] =
      [("a.b", Val.str "x"), ("a.b", Val.str "y")] from rfl]
    exact List.mem_cons_self _ _
  · intro h
    rw [show Flatten [("a", Val.map [("b", Val.str "x")]), ("a.b", Val.str "y")] =
      [("a.b", Val.str "y")] from rfl] at h
    have h2 := List.mem_singleton.mp h
    have h3 : Val.str "x" = Val.str "y" := congrArg Prod.snd h2
    injection h3 with h4
    exact absurd h4 (by decide)
  · rw [show leafPaths [("", Val.map [("x", Val.str "v")])] [] =
      [(".x", Val.str "v")] from rfl]
    exact List.mem_cons_self _ _
  · intro h
    rw [show Flatten [("", Val.map [("x", Val.str "v")])] =
      [("x", Val.str "v")] from rfl] at h
    have h2 := List.mem_singleton.mp h
    have h3 : (".x" : String) = "x" := congrArg Prod.fst h2
    exact absurd h3 (by decide)

lemma pairList_induction (motive : List Node → Prop)
    (h0 : motive []) (h1 : ∀ k, motive [k])
    (h2 : ∀ k v rest, motive rest → motive (k :: v :: rest)) :
    ∀ c, motive c := by
  have key : ∀ (n : Nat) (c : List Node), c.length ≤ n → motive c := by
    intro n
    induction n with
    | zero =>
      intro c hc
      match c with
      | [] => exact h0
      | x :: xs => simp at hc
    | succ n ih =>
      intro c hc
      match c with
      | [] => exact h0
      | [k] => exact h1 k
      | k :: v :: rest =>
        refine h2 k v rest (ih rest ?_)
        simp at hc
        omega
  exact fun c => key c.length c le_rfl

lemma sizeOf_entryPairs_snd (c : List Node) : ∀ p ∈ entryPairs c, sizeOf p.2 < sizeOf c := by
  induction c using pairList_induction with
  | h0 => intro p hp; simp [entryPairs] at hp
  | h1 k => intro p hp; simp [entryPairs] at hp
  | h2 k v rest ih =>
    intro p hp
    simp only [entryPairs, List.mem_cons] at hp
    rcases hp with hp | hp
    · subst hp
      simp
      try omega
    · have := ih p hp
      simp
      try omega

lemma sizeOf_content_lt (node : Node) : sizeOf node.content < sizeOf node := by
  cases node with
  | mk k v t c => simp [Node.content]; try omega

/-- The preservation shape that one patch pass guarantees between the
old and the new tree.  At a mapping that stays a mapping, the old
entries survive as an initial segment, key nodes untouched and in the
same positions, with each value related recursively; a mapping entry
hit by an overwrite degenerates to a scalar (its subtree is dropped);
a non-mapping value is either untouched or replaced by a scalar. -/
inductive Pres : Node → Node → Prop where
  | mapNode : ∀ (old new : Node),
      old.kind = NodeKind.mapping → new.kind = NodeKind.mapping →
      (entryPairs old.content).length ≤ (entryPairs new.content).length →
      (∀ (i : Nat) (hi : i < (entryPairs old.content).length)
        (hj : i < (entryPairs new.content).length),
        ((entryPairs old.content).get ⟨i, hi⟩).1 =
          ((entryPairs new.content).get ⟨i, hj⟩).1) →
      (∀ (i : Nat) (hi : i < (entryPairs old.content).length)
        (hj : i < (entryPairs new.content).length),
        Pres ((entryPairs old.content).get ⟨i, hi⟩).2
          ((entryPairs new.content).get ⟨i, hj⟩).2) →
      Pres old new
  | destroyed : ∀ (old new : Node),
      old.kind = NodeKind.mapping → new.kind = NodeKind.scalar → Pres old new
  | leafSame : ∀ (old : Node), old.kind ≠ NodeKind.mapping → Pres old old
  | leafScalar : ∀ (old new : Node),
      old.kind ≠ NodeKind.mapping → new.kind = NodeKind.scalar → Pres old new

lemma presRefl (node : Node) : Pres node node := by
  have key : ∀ (n : Nat) (node : Node), sizeOf node ≤ n → Pres node node := by
    intro n
    induction n with
    | zero =>
      intro node h
      cases node with
      | mk k v t c => simp at h
    | succ n ih =>
      intro node h
      by_cases hk : node.kind = NodeKind.mapping
      · refine Pres.mapNode node node hk hk le_rfl (fun i hi hj => rfl) ?_
        intro i hi hj
        have hmem : (entryPairs node.content).get ⟨i, hi⟩ ∈ entryPairs node.content :=
          List.get_mem _ _ _
        have hlt := sizeOf_entryPairs_snd node.content _ hmem
        have hc := sizeOf_content_lt node
        exact ih _ (by omega)
      · exact Pres.leafSame node hk
  exact key (sizeOf node) node le_rfl

lemma presTrans : ∀ (a b c : Node), Pres a b → Pres b c → Pres a c := by
  have key : ∀ (n : Nat) (a b c : Node), sizeOf a ≤ n →
      Pres a b → Pres b c → Pres a c := by
    intro n
    induction n with
    | zero =>
      intro a b c h
      cases a with
      | mk k v t cc => simp at h
    | succ n ih =>
      intro a b c hsz hab hbc
      cases hab with
      | mapNode _ _ hak hbk hlen hkeys hvals =>
        cases hbc with
        | mapNode _ _ hbk2 hck hlen2 hkeys2 hvals2 =>
          refine Pres.mapNode a c hak hck (le_trans hlen hlen2) ?_ ?_
          · intro i hi hj
            have hbi : i < (entryPairs b.content).length := lt_of_lt_of_le hi hlen
            exact (hkeys i hi hbi).trans (hkeys2 i hbi hj)
          · intro i hi hj
            have hbi : i < (entryPairs b.content).length := lt_of_lt_of_le hi hlen
            have hmem : (entryPairs a.content).get ⟨i, hi⟩ ∈ entryPairs a.content :=
              List.get_mem _ _ _
            have hlt := sizeOf_entryPairs_snd a.content _ hmem
            have hc := sizeOf_content_lt a
            exact ih _ _ _ (by omega) (hvals i hi hbi) (hvals2 i hbi hj)
        | destroyed _ _ hbk2 hck => exact Pres.destroyed a c hak hck
        | leafSame _ hbnm => exact absurd hbk hbnm
        | leafScalar _ _ hbnm hck => exact absurd hbk hbnm
      | destroyed _ _ hak hbk =>
        have hbnm : b.kind ≠ NodeKind.mapping := by
          rw [hbk]
          simp
        cases hbc with
        | mapNode _ _ hbk2 _ _ _ _ => exact absurd hbk2 hbnm
        | destroyed _ _ hbk2 _ => exact absurd hbk2 hbnm
        | leafSame _ _ => exact Pres.destroyed a b hak hbk
        | leafScalar _ _ _ hck => exact Pres.destroyed a c hak hck
      | leafSame _ hanm => exact hbc
      | leafScalar _ _ hanm hbk =>
        have hbnm : b.kind ≠ NodeKind.mapping := by
          rw [hbk]
          simp
        cases hbc with
        | mapNode _ _ hbk2 _ _ _ _ => exact absurd hbk2 hbnm
        | destroyed _ _ hbk2 _ => exact absurd hbk2 hbnm
        | leafSame _ _ => exact Pres.leafScalar a b hanm hbk
        | leafScalar _ _ _ hck => exact Pres.leafScalar a c hanm hck
  exact fun a b c => key (sizeOf a) a b c le_rfl

/-- How one scan pass may change an entry: untouched, overwritten to a
fresh scalar, or (for a first-segment hit on a mapping) descended into. -/
def EntryRel (value : String) (upd : Node → Node) (p q : Node × Node) : Prop :=
  p.1 = q.1 ∧
    (q.2 = p.2 ∨ q.2 = scalarNode value ∨
      (p.2.kind = NodeKind.mapping ∧ q.2 = upd p.2))

lemma entryRel_refl (value : String) (upd : Node → Node) (p : Node × Node) :
    EntryRel value upd p p :=
  ⟨rfl, Or.inl rfl⟩

lemma overwriteFlatKey_forall₂ (flatKey value : String) (upd : Node → Node) :
    ∀ (c c2 : List Node), overwriteFlatKey flatKey value c = some c2 →
      List.Forall₂ (EntryRel value upd) (entryPairs c) (entryPairs c2) := by
  intro c
  induction c using pairList_induction with
  | h0 => intro c2 h; simp [overwriteFlatKey] at h
  | h1 k => intro c2 h; simp [overwriteFlatKey] at h
  | h2 k v rest ih =>
    intro c2 h
    simp only [overwriteFlatKey] at h
    by_cases hk : k.value = flatKey
    · rw [if_pos hk] at h
      cases h
      simp only [entryPairs]
      exact List.Forall₂.cons ⟨rfl, Or.inr (Or.inl rfl)⟩
        (List.forall₂_same.mpr (fun p _ => entryRel_refl value upd p))
    · rw [if_neg hk] at h
      rcases Option.map_eq_some'.mp h with ⟨c3, hc3, rfl⟩
      simp only [entryPairs]
      exact List.Forall₂.cons (entryRel_refl value upd (k, v)) (ih c3 hc3)

lemma upsertSeg_forall₂ (seg : String) (isLast : Bool) (value : String) (upd : Node → Node) :
    ∀ (c c2 : List Node), upsertSeg seg isLast value upd c = some c2 →
      List.Forall₂ (EntryRel value upd) (entryPairs c) (entryPairs c2) := by
  intro c
  induction c using pairList_induction with
  | h0 => intro c2 h; simp [upsertSeg] at h
  | h1 k => intro c2 h; simp [upsertSeg] at h
  | h2 k v rest ih =>
    intro c2 h
    simp only [upsertSeg] at h
    by_cases hk : k.value = seg
    · rw [if_pos hk] at h
      cases isLast with
      | true =>
        simp only [if_true] at h
        cases h
        simp only [entryPairs]
        exact List.Forall₂.cons ⟨rfl, Or.inr (Or.inl rfl)⟩
          (List.forall₂_same.mpr (fun p _ => entryRel_refl value upd p))
      | false =>
        simp only [Bool.false_eq_true, if_false] at h
        by_cases hv : v.kind = NodeKind.mapping
        · rw [if_pos hv] at h
          cases h
          simp only [entryPairs]
          exact List.Forall₂.cons ⟨rfl, Or.inr (Or.inr ⟨hv, rfl⟩)⟩
            (List.forall₂_same.mpr (fun p _ => entryRel_refl value upd p))
        · rw [if_neg hv] at h
          cases h
          exact List.forall₂_same.mpr (fun p _ => entryRel_refl value upd p)
    · rw [if_neg hk] at h
      rcases Option.map_eq_some'.mp h with ⟨c3, hc3, rfl⟩
      simp only [entryPairs]
      exact List.Forall₂.cons (entryRel_refl value upd (k, v)) (ih c3 hc3)

lemma entryPairs_append_pointwise (c extra : List Node) :
    (entryPairs c).length ≤ (entryPairs (c ++ extra)).length ∧
    ∀ (i : Nat) (hi : i < (entryPairs c).length)
      (hj : i < (entryPairs (c ++ extra)).length),
      (entryPairs (c ++ extra)).get ⟨i, hj⟩ = (entryPairs c).get ⟨i, hi⟩ := by
  induction c using pairList_induction with
  | h0 => simp [entryPairs]
  | h1 k => simp [entryPairs]
  | h2 k v rest ih =>
    simp only [List.cons_append, entryPairs, List.length_cons]
    refine ⟨Nat.add_le_add_right ih.1 1, ?_⟩
    intro i hi hj
    cases i with
    | zero => rfl
    | succ i2 =>
      have hi2 : i2 < (entryPairs rest).length := by omega
      have hj2 : i2 < (entryPairs (rest ++ extra)).length := by omega
      exact ih.2 i2 hi2 hj2

lemma entryRel_pres (value : String) (upd : Node → Node)
    (hupd : ∀ v, v.kind = NodeKind.mapping → Pres v (upd v)) :
    ∀ p q : Node × Node, EntryRel value upd p q → p.1 = q.1 ∧ Pres p.2 q.2 := by
  rintro p q ⟨hk, h⟩
  refine ⟨hk, ?_⟩
  rcases h with h | h | ⟨hm, h⟩
  · rw [h]
    exact presRefl _
  · by_cases hm : p.2.kind = NodeKind.mapping
    · exact Pres.destroyed _ _ hm (by rw [h]; rfl)
    · exact Pres.leafScalar _ _ hm (by rw [h]; rfl)
  · rw [h]
    exact hupd _ hm

lemma pres_of_forall₂ (nv nt : String) (c c2 : List Node) (value : String)
    (upd : Node → Node)
    (hupd : ∀ v, v.kind = NodeKind.mapping → Pres v (upd v))
    (hf : List.Forall₂ (EntryRel value upd) (entryPairs c) (entryPairs c2)) :
    Pres (Node.mk NodeKind.mapping nv nt c) (Node.mk NodeKind.mapping nv nt c2) := by
  obtain ⟨hlen, hget⟩ := List.forall₂_iff_get.mp hf
  refine Pres.mapNode _ _ rfl rfl (le_of_eq hlen) ?_ ?_
  · intro i hi hj
    exact (entryRel_pres value upd hupd _ _ (hget i hi hj)).1
  · intro i hi hj
    exact (entryRel_pres value upd hupd _ _ (hget i hi hj)).2

lemma pres_of_append (nv nt : String) (c extra : List Node) :
    Pres (Node.mk NodeKind.mapping nv nt c) (Node.mk NodeKind.mapping nv nt (c ++ extra)) := by
  obtain ⟨hlen, hpt⟩ := entryPairs_append_pointwise c extra
  refine Pres.mapNode _ _ rfl rfl hlen ?_ ?_
  · intro i hi hj
    have h := hpt i hi hj
    have goal1 : ((entryPairs c).get ⟨i, hi⟩).1 =
        ((entryPairs (c ++ extra)).get ⟨i, hj⟩).1 := by rw [h]
    exact goal1
  · intro i hi hj
    have h := hpt i hi hj
    have goal2 : Pres ((entryPairs c).get ⟨i, hi⟩).2
        ((entryPairs (c ++ extra)).get ⟨i, hj⟩).2 := by
      rw [h]
      exact presRefl _
    exact goal2

lemma pres_upsert : ∀ (keyPath : List String) (node : Node) (value : String),
    Pres node (upsertNestedKey node keyPath value) := by
  intro keyPath
  induction keyPath with
  | nil => intro node value; exact presRefl node
  | cons seg restPath ih =>
    intro node value
    by_cases hk : node.kind = NodeKind.mapping
    · cases node with
      | mk nk nv nt c =>
        have hnk : nk = NodeKind.mapping := hk
        subst hnk
        rw [upsertNestedKey_mapping]
        cases hof : overwriteFlatKey (strJoin '.' (seg :: restPath)) value c with
        | some c2 =>
          exact pres_of_forall₂ nv nt c c2 value
            (fun v => upsertNestedKey v restPath value) (fun v _ => ih v value)
            (overwriteFlatKey_forall₂ _ _ _ c c2 hof)
        | none =>
          cases hus : upsertSeg seg restPath.isEmpty value
              (fun v => upsertNestedKey v restPath value) c with
          | some c2 =>
            exact pres_of_forall₂ nv nt c c2 value
              (fun v => upsertNestedKey v restPath value) (fun v _ => ih v value)
              (upsertSeg_forall₂ _ _ _ _ c c2 hus)
          | none =>
            cases hfk : hasFlatKeys c with
            | true => exact pres_of_append nv nt c _
            | false =>
              rw [addNestedKey_chain]
              exact pres_of_append nv nt c _
    · have heq : upsertNestedKey node (seg :: restPath) value = node := by
        simp only [upsertNestedKey]
        rw [if_pos hk]
      rw [heq]
      exact presRefl node

/-- C5 amended: a patch pass never removes, renames or reorders the
entries of any mapping that survives in the result: at every such
mapping the old entries remain an initial segment, in order and with
identical key nodes, new entries being appended only at the end, and
each surviving value is itself preserved recursively.  The exception
the counterexample forces: an entry hit by an overwrite has its whole
value (possibly a mapping subtree with all its inner keys) replaced by
a single reference scalar. -/
theorem patch_preserves_surviving_entries :
    (∀ (node : Node) (keyPath : List String) (value : String),
      Pres node (upsertNestedKey node keyPath value)) ∧
    (∀ (root : Node) (vaultPath : String) (keys : List String),
      Pres root (patchKeys root vaultPath keys)) := by
  refine ⟨fun node keyPath value => pres_upsert keyPath node value, ?_⟩
  intro root vaultPath keys
  induction keys generalizing root with
  | nil => exact presRefl root
  | cons k ks ih =>
    exact presTrans _ _ _ (pres_upsert _ root _) (ih (applyVaultRef vaultPath root k))

/-- C5 counterexample: patching key "a" on the tree a ↦ (b ↦ x)
overwrites the mapping under "a" with a reference scalar, so the key
"b", present in a mapping before the call, is present nowhere
afterwards — existing (key, position) pairs are not all preserved. -/
theorem patch_removes_inner_key_counterexample :
    keyInTree "b" (Node.mk NodeKind.mapping "" ""
      [scalarNode "a",
       Node.mk NodeKind.mapping "" "" [scalarNode "b", scalarNode "x"]]) = true ∧
    keyInTree "b" (patchKeys (Node.mk NodeKind.mapping "" ""
      [scalarNode "a",
       Node.mk NodeKind.mapping "" "" [scalarNode "b", scalarNode "x"]])
      "secret/app" ["a"]) = false := by
  exact ⟨rfl, rfl⟩
